import Mathlib

/-!
Shallow embedding of the 64-bit xxHash implementation in `src/lib.rs`
(`fizyk20/rust-xxhash`): the streaming hasher state (`XXHasher`), its
`reset`/`write`/`finish` operations and the `oneshot` convenience function,
together with proofs about buffering, finalization and the reference vectors.

Machine integers (`u64`) are modelled as `Nat` reduced modulo `2 ^ 64`; bytes
are `Nat` values below 256.  The fixed 32-byte carry buffer `memory` together
with its valid-byte count `memsize` is modelled as the list of its `memsize`
valid bytes (the bytes beyond `memsize` are never read by the code).
-/

def M64 : Nat := 2 ^ 64

def PRIME1 : Nat := 11400714785074694791
def PRIME2 : Nat := 14029467366897019727
def PRIME3 : Nat := 1609587929392839161
def PRIME4 : Nat := 9650029242287828579
def PRIME5 : Nat := 2870177450012600261

def HAPPY_SEED : Nat := 18446744073709551557

/-- Wrapping 64-bit addition. -/
def wadd (a b : Nat) : Nat := (a + b) % M64

/-- Wrapping 64-bit multiplication. -/
def wmul (a b : Nat) : Nat := (a * b) % M64

/-- Wrapping 64-bit subtraction. -/
def wsub (a b : Nat) : Nat := (a + (M64 - b % M64)) % M64

/-- `rotl64` from `src/lib.rs`: `(x << b) | (x >> (64 - b))` on `u64`. -/
def rotl64 (x b : Nat) : Nat := ((x <<< b) % M64) ||| (x >>> (64 - b))

/-- Modelled from the spec: the `read_ptr!` macro lives in `src/macros.rs`,
which is absent from the sources; the spec states that stripe and tail words
are read little-endian and the cursor advanced past them.  `readLE n bs` is
the little-endian value of the first `n` bytes of `bs`. -/
def readLE (n : Nat) (bs : List Nat) : Nat :=
  (bs.take n).foldr (fun b acc => b + 256 * acc) 0

def readU64LE (bs : List Nat) : Nat := readLE 8 bs

def readU32LE (bs : List Nat) : Nat := readLE 4 bs

/-- The four accumulator lanes `v1 .. v4`. -/
@[ext] structure Lanes where
  v1 : Nat
  v2 : Nat
  v3 : Nat
  v4 : Nat

/-- The `eat!` step of `write`: `v = v + w·P2; v = rotl(v, 31); v = v·P1`. -/
def eatLane (v w : Nat) : Nat := wmul (rotl64 (wadd v (wmul w PRIME2)) 31) PRIME1

/-- One 32-byte stripe: each lane eats its own little-endian 64-bit word. -/
def eatStripe (l : Lanes) (bs : List Nat) : Lanes :=
  { v1 := eatLane l.v1 (readU64LE bs)
  , v2 := eatLane l.v2 (readU64LE (bs.drop 8))
  , v3 := eatLane l.v3 (readU64LE (bs.drop 16))
  , v4 := eatLane l.v4 (readU64LE (bs.drop 24)) }

/-- Fuel-indexed main loop of `write` (`while rem >= 32`); the fuel is only a
structural-recursion device, any fuel at least `bs.length` gives the loop's
behaviour. -/
def eatLoopF : Nat → Lanes → List Nat → Lanes × List Nat
  | 0, l, bs => (l, bs)
  | f + 1, l, bs =>
    if 32 ≤ bs.length then eatLoopF f (eatStripe l bs) (bs.drop 32) else (l, bs)

/-- The main loop of `write`: eat 32-byte stripes while at least 32 bytes
remain, returning the updated lanes and the unconsumed rest. -/
def eatStripes (l : Lanes) (bs : List Nat) : Lanes × List Nat :=
  eatLoopF bs.length l bs

/-- The hasher state of `src/lib.rs` (`memory`/`memsize` as the list of valid
carry-buffer bytes). -/
@[ext] structure XXHasher where
  memory : List Nat
  v1 : Nat
  v2 : Nat
  v3 : Nat
  v4 : Nat
  total_len : Nat
  seed : Nat

/-- `memsize`: the number of valid bytes in the carry buffer. -/
def XXHasher.memsize (s : XXHasher) : Nat := s.memory.length

def getLanes (s : XXHasher) : Lanes := ⟨s.v1, s.v2, s.v3, s.v4⟩

def setLanes (s : XXHasher) (l : Lanes) : XXHasher :=
  { s with v1 := l.v1, v2 := l.v2, v3 := l.v3, v4 := l.v4 }

/-- `reset` from `src/lib.rs`. -/
def XXHasher.reset (s : XXHasher) : XXHasher :=
  { s with
    v1 := wadd (wadd s.seed PRIME1) PRIME2
    v2 := wadd s.seed PRIME2
    v3 := s.seed
    v4 := wsub s.seed PRIME1
    total_len := 0
    memory := [] }

/-- `new_with_seed`: store the seed (a `u64`) and `reset`.  The remaining
fields start uninitialized in the Rust code and are fully overwritten by
`reset`; they are given dummy zero values here. -/
def newWithSeed (seed : Nat) : XXHasher :=
  XXHasher.reset
    { memory := [], v1 := 0, v2 := 0, v3 := 0, v4 := 0, total_len := 0
    , seed := seed % M64 }

/-- `write` from `src/lib.rs`: update `total_len`; if the carry buffer plus
input holds fewer than 32 bytes just append to the buffer; otherwise top up a
non-empty carry buffer to 32 bytes and eat it, then eat 32-byte stripes
directly from the input, and stash the remaining bytes in the buffer. -/
def XXHasher.write (s : XXHasher) (input : List Nat) : XXHasher :=
  if s.memory.length + input.length < 32 then
    { memory := s.memory ++ input, v1 := s.v1, v2 := s.v2, v3 := s.v3
    , v4 := s.v4, total_len := (s.total_len + input.length) % M64
    , seed := s.seed }
  else if s.memory.length ≠ 0 then
    let bump := 32 - s.memory.length
    let l1 := eatStripe (getLanes s) (s.memory ++ input.take bump)
    let r1 := eatStripes l1 (input.drop bump)
    { memory := r1.2, v1 := r1.1.v1, v2 := r1.1.v2, v3 := r1.1.v3
    , v4 := r1.1.v4, total_len := (s.total_len + input.length) % M64
    , seed := s.seed }
  else
    let r1 := eatStripes (getLanes s) input
    { memory := r1.2, v1 := r1.1.v1, v2 := r1.1.v2, v3 := r1.1.v3
    , v4 := r1.1.v4, total_len := (s.total_len + input.length) % M64
    , seed := s.seed }

/-- The `permute!` step of `finish`:
`v = v·P2; v = rotl(v,31); v = v·P1; h = h xor v; h = h·P1 + P4`. -/
def mergeRound (h v : Nat) : Nat :=
  wadd (wmul (h ^^^ wmul (rotl64 (wmul v PRIME2) 31) PRIME1) PRIME1) PRIME4

/-- Lane merge of `finish` for `total_len >= 32`. -/
def mergeAcc (s : XXHasher) : Nat :=
  let h := wadd (wadd (wadd (rotl64 s.v1 1) (rotl64 s.v2 7)) (rotl64 s.v3 12))
    (rotl64 s.v4 18)
  mergeRound (mergeRound (mergeRound (mergeRound h s.v1) s.v2) s.v3) s.v4

/-- 8-byte tail step of `finish`. -/
def step8 (h k : Nat) : Nat :=
  wadd (wmul (rotl64 (h ^^^ wmul (rotl64 (wmul k PRIME2) 31) PRIME1) 27) PRIME1)
    PRIME4

/-- 4-byte tail step of `finish`. -/
def step4 (h k : Nat) : Nat :=
  wadd (wmul (rotl64 (h ^^^ wmul k PRIME1) 23) PRIME2) PRIME3

/-- 1-byte tail step of `finish`. -/
def step1 (h b : Nat) : Nat := wmul (rotl64 (h ^^^ wmul b PRIME5) 11) PRIME1

/-- Fuel-indexed `while rem >= 8` tail loop of `finish`. -/
def tail8F : Nat → Nat → List Nat → Nat × List Nat
  | 0, h, bs => (h, bs)
  | f + 1, h, bs =>
    if 8 ≤ bs.length then tail8F f (step8 h (readU64LE bs)) (bs.drop 8)
    else (h, bs)

/-- The `while rem >= 8` tail loop of `finish`. -/
def tail8 (h : Nat) (bs : List Nat) : Nat × List Nat := tail8F bs.length h bs

/-- The tail phase of `finish`: the 8-byte loop, then the 4-byte step when at
least 4 bytes remain, then the byte-at-a-time loop. -/
def finishTail (h : Nat) (bs : List Nat) : Nat :=
  let p := tail8 h bs
  let q := if 4 ≤ p.2.length then (step4 p.1 (readU32LE p.2), p.2.drop 4)
    else p
  q.2.foldl step1 q.1

/-- The final avalanche mix of `finish`. -/
def avalanche (h : Nat) : Nat :=
  let h1 := h ^^^ (h >>> 33)
  let h2 := wmul h1 PRIME2
  let h3 := h2 ^^^ (h2 >>> 29)
  let h4 := wmul h3 PRIME3
  h4 ^^^ (h4 >>> 32)

/-- `finish` from `src/lib.rs`. -/
def XXHasher.finish (s : XXHasher) : Nat :=
  let h64 := if s.total_len < 32 then wadd s.seed PRIME5 else mergeAcc s
  avalanche (finishTail (wadd h64 s.total_len) s.memory)

/-- `oneshot` from `src/lib.rs`. -/
def oneshot (input : List Nat) (seed : Nat) : Nat :=
  ((newWithSeed seed).write input).finish

/-- Feed a list of chunks to `write` in order. -/
def writeList (s : XXHasher) (chunks : List (List Nat)) : XXHasher :=
  chunks.foldl XXHasher.write s

/-- The pseudo-random generator of the sanity test `test_base`:
`r[0] = 2654435761`, `r[i+1] = r[i]²  mod 2^32`. -/
def refRand : Nat → Nat
  | 0 => 2654435761
  | n + 1 => (refRand n * refRand n) % 2 ^ 32

/-- The 101-byte test buffer of `test_base`: byte `i` is `(r[i] >> 24)`. -/
def refBuf : List Nat := (List.range 101).map (fun i => refRand i >>> 24)

/-- Fuel-indexed chunking (Rust's `slice::chunks`). -/
def chunksF : Nat → Nat → List Nat → List (List Nat)
  | 0, _, _ => []
  | f + 1, n, bs =>
    if bs.isEmpty then [] else bs.take n :: chunksF f n (bs.drop n)

/-- Split a byte list into consecutive chunks of `n` bytes (the last chunk may
be shorter), as Rust's `slice::chunks(n)` does. -/
def chunks (n : Nat) (bs : List Nat) : List (List Nat) := chunksF bs.length n bs

/-! ### List reading lemmas -/

theorem readLE_append (n : Nat) (bs c : List Nat) (h : n ≤ bs.length) :
    readLE n (bs ++ c) = readLE n bs := by
  unfold readLE
  rw [List.take_append_eq_append_take, Nat.sub_eq_zero_of_le h, List.take_zero,
    List.append_nil]

theorem drop_append_of_le (n : Nat) (bs c : List Nat) (h : n ≤ bs.length) :
    (bs ++ c).drop n = bs.drop n ++ c := by
  rw [List.drop_append_eq_append_drop, Nat.sub_eq_zero_of_le h, List.drop_zero]

theorem eatStripe_append (l : Lanes) (bs c : List Nat) (h : 32 ≤ bs.length) :
    eatStripe l (bs ++ c) = eatStripe l bs := by
  unfold eatStripe readU64LE
  rw [readLE_append 8 bs c (by omega),
    drop_append_of_le 8 bs c (by omega),
    drop_append_of_le 16 bs c (by omega),
    drop_append_of_le 24 bs c (by omega),
    readLE_append 8 (bs.drop 8) c (by simp; omega),
    readLE_append 8 (bs.drop 16) c (by simp; omega),
    readLE_append 8 (bs.drop 24) c (by simp; omega)]

/-! ### Main-loop (stripe) lemmas -/

theorem eatLoopF_lt (f : Nat) (l : Lanes) (bs : List Nat) (h : bs.length < 32) :
    eatLoopF f l bs = (l, bs) := by
  cases f with
  | zero => rfl
  | succ f => simp [eatLoopF, Nat.not_le.mpr h]

theorem eatLoopF_fuel (f : Nat) : ∀ f' (l : Lanes) (bs : List Nat),
    bs.length ≤ f → bs.length ≤ f' → eatLoopF f l bs = eatLoopF f' l bs := by
  induction f with
  | zero =>
    intro f' l bs h _
    have hb : bs = [] := List.length_eq_zero.mp (Nat.le_zero.mp h)
    subst hb
    rw [eatLoopF_lt _ _ _ (by simp), eatLoopF_lt _ _ _ (by simp)]
  | succ f ih =>
    intro f' l bs h h'
    by_cases h32 : 32 ≤ bs.length
    · cases f' with
      | zero => omega
      | succ f' =>
        simp only [eatLoopF, if_pos h32]
        exact ih f' _ _ (by simp; omega) (by simp; omega)
    · rw [eatLoopF_lt _ _ _ (by omega), eatLoopF_lt _ _ _ (by omega)]

theorem eatStripes_lt (l : Lanes) (bs : List Nat) (h : bs.length < 32) :
    eatStripes l bs = (l, bs) := eatLoopF_lt _ _ _ h

theorem eatStripes_step (l : Lanes) (bs : List Nat) (h : 32 ≤ bs.length) :
    eatStripes l bs = eatStripes (eatStripe l bs) (bs.drop 32) := by
  unfold eatStripes
  obtain ⟨f, hf⟩ : ∃ f, bs.length = f + 1 := ⟨bs.length - 1, by omega⟩
  rw [hf]
  simp only [eatLoopF, if_pos h]
  exact eatLoopF_fuel f _ _ _ (by simp; omega) (by simp)

theorem eatStripes_rest_lt (l : Lanes) (bs : List Nat) :
    (eatStripes l bs).2.length < 32 := by
  have H : ∀ f (l : Lanes) (bs : List Nat), bs.length ≤ f →
      (eatLoopF f l bs).2.length < 32 := by
    intro f
    induction f with
    | zero =>
      intro l bs h
      have hb : bs = [] := List.length_eq_zero.mp (Nat.le_zero.mp h)
      subst hb
      simp [eatLoopF]
    | succ f ih =>
      intro l bs h
      by_cases h32 : 32 ≤ bs.length
      · simp only [eatLoopF, if_pos h32]
        exact ih _ _ (by simp; omega)
      · rw [eatLoopF_lt _ _ _ (by omega)]
        show bs.length < 32
        omega
  exact H _ _ _ (Nat.le_refl _)

theorem eatStripes_append (l : Lanes) (bs c : List Nat) :
    eatStripes l (bs ++ c) =
      eatStripes (eatStripes l bs).1 ((eatStripes l bs).2 ++ c) := by
  have H : ∀ f (l : Lanes) (bs : List Nat), bs.length ≤ f →
      eatStripes l (bs ++ c) =
        eatStripes (eatStripes l bs).1 ((eatStripes l bs).2 ++ c) := by
    intro f
    induction f with
    | zero =>
      intro l bs h
      have hb : bs = [] := List.length_eq_zero.mp (Nat.le_zero.mp h)
      subst hb
      rw [eatStripes_lt l [] (by simp)]
    | succ f ih =>
      intro l bs h
      by_cases h32 : 32 ≤ bs.length
      · rw [eatStripes_step l (bs ++ c) (by simp; omega),
          eatStripe_append l bs c h32,
          drop_append_of_le 32 bs c h32,
          eatStripes_step l bs h32]
        exact ih _ _ (by simp; omega)
      · rw [eatStripes_lt l bs (by omega)]
  exact H _ _ _ (Nat.le_refl _)

/-! ### Characterization of write -/

theorem write_small (s : XXHasher) (input : List Nat)
    (h : s.memory.length + input.length < 32) :
    s.write input =
      { memory := s.memory ++ input, v1 := s.v1, v2 := s.v2, v3 := s.v3
      , v4 := s.v4, total_len := (s.total_len + input.length) % M64
      , seed := s.seed } := by
  simp only [XXHasher.write, if_pos h]

theorem write_large (s : XXHasher) (input : List Nat)
    (h : 32 ≤ s.memory.length + input.length) (hm : s.memory.length < 32) :
    s.write input =
      { memory := (eatStripes (getLanes s) (s.memory ++ input)).2
      , v1 := (eatStripes (getLanes s) (s.memory ++ input)).1.v1
      , v2 := (eatStripes (getLanes s) (s.memory ++ input)).1.v2
      , v3 := (eatStripes (getLanes s) (s.memory ++ input)).1.v3
      , v4 := (eatStripes (getLanes s) (s.memory ++ input)).1.v4
      , total_len := (s.total_len + input.length) % M64
      , seed := s.seed } := by
  obtain ⟨mem, w1, w2, w3, w4, tl, sd⟩ := s
  simp only [XXHasher.write] at *
  by_cases c2 : mem.length = 0
  · have hmem : mem = [] := List.length_eq_zero.mp c2
    subst hmem
    rw [if_neg (show ¬ ([] : List Nat).length + input.length < 32 by
      simp only [List.length_nil]; omega)]
    rw [if_neg (show ¬ ([] : List Nat).length ≠ 0 by simp)]
    simp only [List.nil_append]
  · have hbump : (mem ++ input.take (32 - mem.length)).length = 32 := by
      simp only [List.length_append, List.length_take]
      omega
    have key : eatStripes (eatStripe ⟨w1, w2, w3, w4⟩ (mem ++ input.take (32 - mem.length)))
        (input.drop (32 - mem.length)) =
        eatStripes ⟨w1, w2, w3, w4⟩ (mem ++ input) := by
      have hsplit : mem ++ input =
          (mem ++ input.take (32 - mem.length)) ++ input.drop (32 - mem.length) := by
        rw [List.append_assoc, List.take_append_drop]
      have h32 : 32 ≤ ((mem ++ input.take (32 - mem.length)) ++
          input.drop (32 - mem.length)).length := by
        rw [← hsplit, List.length_append]; omega
      conv_rhs => rw [hsplit]
      rw [eatStripes_step ⟨w1, w2, w3, w4⟩ _ h32,
        eatStripe_append _ _ _ (le_of_eq hbump.symm),
        List.drop_append_eq_append_drop, hbump,
        List.drop_eq_nil_of_le (le_of_eq hbump), Nat.sub_self, List.drop_zero,
        List.nil_append]
    rw [if_neg (show ¬ mem.length + input.length < 32 by omega), if_pos c2]
    simp only [getLanes]
    rw [key]

theorem lanes_eta (p : Lanes) : (⟨p.v1, p.v2, p.v3, p.v4⟩ : Lanes) = p := rfl

theorem write_mem_lt (s : XXHasher) (input : List Nat) (hm : s.memory.length < 32) :
    (s.write input).memory.length < 32 := by
  by_cases c : s.memory.length + input.length < 32
  · rw [write_small s input c]
    simpa using c
  · rw [write_large s input (by omega) hm]
    exact eatStripes_rest_lt _ _

theorem write_write (s : XXHasher) (a b : List Nat) (hm : s.memory.length < 32) :
    (s.write a).write b = s.write (a ++ b) := by
  have hlen : (a ++ b).length = a.length + b.length := List.length_append a b
  have hassoc : s.memory ++ (a ++ b) = (s.memory ++ a) ++ b :=
    (List.append_assoc _ _ _).symm
  by_cases c1 : s.memory.length + a.length < 32
  · rw [write_small s a c1]
    by_cases c2 : s.memory.length + a.length + b.length < 32
    · rw [write_small _ b (by simp only [List.length_append]; omega),
        write_small s (a ++ b) (by rw [hlen]; omega)]
      simp only [XXHasher.mk.injEq, List.append_assoc, Nat.mod_add_mod, hlen,
        Nat.add_assoc]
    · rw [write_large _ b (by simp only [List.length_append]; omega)
          (by simp only [List.length_append]; omega),
        write_large s (a ++ b) (by rw [hlen]; omega) hm]
      simp only [XXHasher.mk.injEq, getLanes, lanes_eta, hassoc,
        Nat.mod_add_mod, hlen, Nat.add_assoc]
  · rw [write_large s a (by omega) hm]
    have hrest := eatStripes_rest_lt (getLanes s) (s.memory ++ a)
    by_cases c2 : (eatStripes (getLanes s) (s.memory ++ a)).2.length + b.length < 32
    · rw [write_small _ b c2, write_large s (a ++ b) (by rw [hlen]; omega) hm]
      have key : eatStripes (getLanes s) (s.memory ++ (a ++ b)) =
          ((eatStripes (getLanes s) (s.memory ++ a)).1,
            (eatStripes (getLanes s) (s.memory ++ a)).2 ++ b) := by
        rw [hassoc, eatStripes_append,
          eatStripes_lt _ _ (by simp only [List.length_append]; omega)]
      simp only [getLanes] at key
      simp only [XXHasher.mk.injEq, getLanes, lanes_eta, key,
        Nat.mod_add_mod, hlen, Nat.add_assoc]
    · rw [write_large _ b
          (show 32 ≤ (eatStripes (getLanes s) (s.memory ++ a)).2.length + b.length
            by omega)
          (show (eatStripes (getLanes s) (s.memory ++ a)).2.length < 32 from hrest),
        write_large s (a ++ b) (by rw [hlen]; omega) hm]
      have key : eatStripes (getLanes s) (s.memory ++ (a ++ b)) =
          eatStripes (eatStripes (getLanes s) (s.memory ++ a)).1
            ((eatStripes (getLanes s) (s.memory ++ a)).2 ++ b) := by
        rw [hassoc, eatStripes_append]
      simp only [getLanes] at key
      simp only [XXHasher.mk.injEq, getLanes, lanes_eta, key,
        Nat.mod_add_mod, hlen, Nat.add_assoc]

/-! ### Reachable states and their invariants -/

theorem M64_pos : 0 < M64 := by unfold M64; positivity

/-- Representation invariant of a live hasher: fewer than 32 buffered bytes
and a `total_len` that fits in a `u64`. -/
def GoodState (s : XXHasher) : Prop := s.memory.length < 32 ∧ s.total_len < M64

/-- The states a hasher can actually be in: freshly constructed (or reset)
with some seed, followed by any sequence of `write` calls. -/
inductive Reachable : XXHasher → Prop
  | init (seed : Nat) : Reachable (newWithSeed seed)
  | step (s : XXHasher) (input : List Nat) : Reachable s → Reachable (s.write input)

theorem write_total_len (s : XXHasher) (input : List Nat) :
    (s.write input).total_len = (s.total_len + input.length) % M64 := by
  unfold XXHasher.write
  by_cases c1 : s.memory.length + input.length < 32
  · rw [if_pos c1]
  · rw [if_neg c1]
    by_cases c2 : s.memory.length ≠ 0
    · rw [if_pos c2]
    · rw [if_neg c2]

theorem newWithSeed_good (seed : Nat) : GoodState (newWithSeed seed) :=
  ⟨by simp [newWithSeed, XXHasher.reset], by simp [newWithSeed, XXHasher.reset, M64_pos]⟩

theorem write_good (s : XXHasher) (input : List Nat) (h : GoodState s) :
    GoodState (s.write input) :=
  ⟨write_mem_lt s input h.1, by rw [write_total_len]; exact Nat.mod_lt _ M64_pos⟩

theorem reachable_good (s : XXHasher) (h : Reachable s) : GoodState s := by
  induction h with
  | init seed => exact newWithSeed_good seed
  | step s input _ ih => exact write_good s input ih

theorem write_nil (s : XXHasher) (h : GoodState s) : s.write [] = s := by
  obtain ⟨hm, ht⟩ := h
  rw [write_small s [] (by simpa using hm)]
  obtain ⟨mem, w1, w2, w3, w4, tl, sd⟩ := s
  simp only [XXHasher.mk.injEq, List.append_nil, List.length_nil, Nat.add_zero,
    Nat.mod_eq_of_lt ht, and_self]

theorem writeList_flatten (s : XXHasher) (ps : List (List Nat)) (h : GoodState s) :
    writeList s ps = s.write ps.flatten := by
  induction ps generalizing s with
  | nil => exact (write_nil s h).symm
  | cons p ps ih =>
    show writeList (s.write p) ps = s.write ((p :: ps).flatten)
    rw [ih (s.write p) (write_good s p h), write_write s p ps.flatten h.1,
      List.flatten_cons]

/-! ### Claim theorems -/

/-- C1: Chunking invariance — for every byte sequence `b`, seed `s`, and
partition of `b` into consecutive sub-slices whose concatenation is `b`,
writing the sub-slices in order and then finishing yields the same 64-bit
value as `oneshot b s`; partitions into 1-byte pieces, 15-byte pieces and a
single piece are particular cases. -/
theorem chunking_invariance (b : List Nat) (s : Nat) (ps : List (List Nat))
    (hp : ps.flatten = b) :
    (writeList (newWithSeed s) ps).finish = oneshot b s := by
  rw [writeList_flatten _ _ (newWithSeed_good s), hp, oneshot]

theorem chunking_invariance_witness :
    ([[1], [2, 3]] : List (List Nat)).flatten = [1, 2, 3] ∧
      (writeList (newWithSeed 7) [[1], [2, 3]]).finish = oneshot [1, 2, 3] 7 :=
  ⟨by decide, chunking_invariance [1, 2, 3] 7 [[1], [2, 3]] (by decide)⟩

/-- C8: Buffer-length invariant — every reachable hasher state (any seed,
any finite sequence of writes) has fewer than 32 buffered bytes. -/
theorem buffer_len_invariant (s : XXHasher) (h : Reachable s) : s.memsize < 32 :=
  (reachable_good s h).1

theorem buffer_len_invariant_witness :
    ((newWithSeed 5).write [1, 2, 3]).memsize < 32 :=
  buffer_len_invariant _ (Reachable.step _ [1, 2, 3] (Reachable.init 5))

/-- C10: Empty update is the identity — on every reachable state, `write`
with a zero-length slice leaves the state (every field) unchanged, so a
subsequent `finish` returns the same digest. -/
theorem write_empty_identity (s : XXHasher) (h : Reachable s) :
    s.write [] = s ∧ (s.write []).finish = s.finish := by
  have he := write_nil s (reachable_good s h)
  exact ⟨he, by rw [he]⟩

theorem write_empty_identity_witness :
    (newWithSeed 9).write [] = newWithSeed 9 ∧
      ((newWithSeed 9).write []).finish = (newWithSeed 9).finish :=
  write_empty_identity _ (Reachable.init 9)

/-- C5: Reset initialization — for every seed (an arbitrary `u64`), reset and
construction set `v1 = seed + P1 + P2`, `v2 = seed + P2`, `v3 = seed`,
`v4 = seed - P1` (all modulo `2^64`, the subtraction expressed on `ℤ`), and
zero `total_len` and `buffer_len`; there are no error conditions. -/
theorem reset_initialization (seed : Nat) (h : seed < M64) :
    (newWithSeed seed).v1 = (seed + PRIME1 + PRIME2) % M64 ∧
    (newWithSeed seed).v2 = (seed + PRIME2) % M64 ∧
    (newWithSeed seed).v3 = seed ∧
    (newWithSeed seed).v4 = (((seed : Int) - (PRIME1 : Nat)) % ((M64 : Nat) : Int)).toNat ∧
    (newWithSeed seed).total_len = 0 ∧
    (newWithSeed seed).memsize = 0 := by
  refine ⟨?_, ?_, ?_, ?_, ?_, ?_⟩ <;>
    simp only [newWithSeed, XXHasher.reset, XXHasher.memsize, wadd, wsub,
      Nat.mod_add_mod, Nat.mod_eq_of_lt h, List.length_nil]
  have h1 : PRIME1 < M64 := by unfold PRIME1 M64; norm_num
  have h1' : PRIME1 % M64 = PRIME1 := Nat.mod_eq_of_lt h1
  rw [h1']
  unfold PRIME1 M64 at *
  omega

theorem reset_initialization_witness :
    3 < M64 ∧
      ((newWithSeed 3).v1 = (3 + PRIME1 + PRIME2) % M64 ∧
       (newWithSeed 3).v2 = (3 + PRIME2) % M64 ∧
       (newWithSeed 3).v3 = 3 ∧
       (newWithSeed 3).v4 = ((((3 : Nat) : Int) - (PRIME1 : Nat)) % ((M64 : Nat) : Int)).toNat ∧
       (newWithSeed 3).total_len = 0 ∧
       (newWithSeed 3).memsize = 0) :=
  ⟨by decide, reset_initialization 3 (by decide)⟩

/-- C6: Empty input digest — for every seed, `finish` on a freshly reset
hasher (and `oneshot` on the empty slice) returns the `total_len < 32`
finalization with zero tail bytes: the avalanche of `seed + P5 + 0`, with the
avalanche written out as
`h ^= h >> 33; h *= P2; h ^= h >> 29; h *= P3; h ^= h >> 32` modulo `2^64`. -/
theorem empty_input_digest (seed : Nat) (h : seed < M64) :
    ((newWithSeed seed).finish =
      (let h0 := (seed + PRIME5 + 0) % M64
       let h1 := h0 ^^^ (h0 >>> 33)
       let h2 := h1 * PRIME2 % M64
       let h3 := h2 ^^^ (h2 >>> 29)
       let h4 := h3 * PRIME3 % M64
       h4 ^^^ (h4 >>> 32))) ∧
    oneshot [] seed = (newWithSeed seed).finish := by
  constructor
  · have e1 : (newWithSeed seed).finish =
        avalanche (finishTail (wadd (if (newWithSeed seed).total_len < 32
            then wadd (newWithSeed seed).seed PRIME5
            else mergeAcc (newWithSeed seed)) ((newWithSeed seed).total_len))
          ((newWithSeed seed).memory)) := rfl
    have etl : (newWithSeed seed).total_len = 0 := rfl
    have emem : (newWithSeed seed).memory = ([] : List Nat) := rfl
    have esd : (newWithSeed seed).seed = seed % M64 := rfl
    have etail : ∀ x : Nat, finishTail x [] = x := fun _ => rfl
    rw [e1, etl, emem, esd, if_pos (by norm_num : (0 : Nat) < 32), etail]
    unfold wadd avalanche wmul
    rw [Nat.mod_eq_of_lt h, Nat.add_zero, Nat.add_zero,
      Nat.mod_mod_of_dvd _ dvd_rfl]
  · show ((newWithSeed seed).write []).finish = (newWithSeed seed).finish
    rw [write_nil _ (newWithSeed_good seed)]

theorem empty_input_digest_witness :
    11 < M64 ∧
      (((newWithSeed 11).finish =
        (let h0 := (11 + PRIME5 + 0) % M64
         let h1 := h0 ^^^ (h0 >>> 33)
         let h2 := h1 * PRIME2 % M64
         let h3 := h2 ^^^ (h2 >>> 29)
         let h4 := h3 * PRIME3 % M64
         h4 ^^^ (h4 >>> 32))) ∧
       oneshot [] 11 = (newWithSeed 11).finish) :=
  ⟨by decide, empty_input_digest 11 (by decide)⟩

/-- C2: Reference vectors — with the 101-byte buffer generated by
`r[0] = 2654435761`, `r[i+1] = r[i]² mod 2^32`, byte `i = r[i] >> 24`, the six
literal one-shot equations of the sanity test hold, and each also holds when
the same prefix is fed through `write` in 15-byte chunks and finished. -/
theorem reference_vectors :
    (oneshot (refBuf.take 1) 0 = 0x4FCE394CC88952D8 ∧
     oneshot (refBuf.take 1) 2654435761 = 0x739840CB819FA723 ∧
     oneshot (refBuf.take 14) 0 = 0xCFFA8DB881BC3A3D ∧
     oneshot (refBuf.take 14) 2654435761 = 0x5B9611585EFCC9CB ∧
     oneshot (refBuf.take 101) 0 = 0x0EAB543384F878AD ∧
     oneshot (refBuf.take 101) 2654435761 = 0xCAA65939306F1E21) ∧
    ((writeList (newWithSeed 0) (chunks 15 (refBuf.take 1))).finish =
        0x4FCE394CC88952D8 ∧
     (writeList (newWithSeed 2654435761) (chunks 15 (refBuf.take 1))).finish =
        0x739840CB819FA723 ∧
     (writeList (newWithSeed 0) (chunks 15 (refBuf.take 14))).finish =
        0xCFFA8DB881BC3A3D ∧
     (writeList (newWithSeed 2654435761) (chunks 15 (refBuf.take 14))).finish =
        0x5B9611585EFCC9CB ∧
     (writeList (newWithSeed 0) (chunks 15 (refBuf.take 101))).finish =
        0x0EAB543384F878AD ∧
     (writeList (newWithSeed 2654435761) (chunks 15 (refBuf.take 101))).finish =
        0xCAA65939306F1E21) := by
  decide

/-- C3 (amended): in the `total_len ≥ 32` path of `finish`, `h` is
initialized to `rotl(v1,1) + rotl(v2,7) + rotl(v3,12) + rotl(v4,18)` and the
per-lane merge step `v' = rotl(v·P2,31)·P1; h = h xor v'; h = h·P1 + P4`
(`mergeRound`) is applied exactly once to each of the four lanes, in the
fixed stripe order v1, v2, v3, v4; the result is in general different for a
different order. -/
theorem lane_merge_applied_in_order (s : XXHasher) (h : 32 ≤ s.total_len) :
    s.finish =
      avalanche (finishTail (wadd
        (mergeRound (mergeRound (mergeRound (mergeRound
            (wadd (wadd (wadd (rotl64 s.v1 1) (rotl64 s.v2 7)) (rotl64 s.v3 12))
              (rotl64 s.v4 18)) s.v1) s.v2) s.v3) s.v4)
        s.total_len) s.memory) := by
  have e1 : s.finish =
      avalanche (finishTail (wadd (if s.total_len < 32
        then wadd s.seed PRIME5 else mergeAcc s) s.total_len) s.memory) := rfl
  have e2 : mergeAcc s =
      mergeRound (mergeRound (mergeRound (mergeRound
          (wadd (wadd (wadd (rotl64 s.v1 1) (rotl64 s.v2 7)) (rotl64 s.v3 12))
            (rotl64 s.v4 18)) s.v1) s.v2) s.v3) s.v4 := rfl
  rw [e1, if_neg (Nat.not_lt.mpr h), e2]

/-- C3 counterexample: merging the lanes in the order v2, v1, v3, v4 gives a
different `h` than the code's order v1, v2, v3, v4 for the state with lanes
(0, 1, 2, 3) and `total_len = 32`, refuting order independence of the
lane-merge step. -/
theorem lane_merge_order_dependent :
    mergeRound (mergeRound (mergeRound (mergeRound
        (wadd (wadd (wadd (rotl64 0 1) (rotl64 1 7)) (rotl64 2 12))
          (rotl64 3 18)) 1) 0) 2) 3 ≠
      mergeAcc { memory := [], v1 := 0, v2 := 1, v3 := 2, v4 := 3
               , total_len := 32, seed := 0 } := by
  decide

theorem lane_merge_applied_in_order_witness :
    32 ≤ (33 : Nat) ∧
      XXHasher.finish { memory := [1, 2], v1 := 5, v2 := 6, v3 := 7, v4 := 8
                      , total_len := 33, seed := 0 } =
        avalanche (finishTail (wadd
          (mergeRound (mergeRound (mergeRound (mergeRound
              (wadd (wadd (wadd (rotl64 5 1) (rotl64 6 7)) (rotl64 7 12))
                (rotl64 8 18)) 5) 6) 7) 8)
          33) [1, 2]) :=
  ⟨by decide, lane_merge_applied_in_order _ (by decide)⟩

/-- C4: Stripe-eat step — when `write` consumes one 32-byte stripe `b` (the
topped-up carry buffer together with the start of the input, covering both
consumption sites), its four 8-byte words are read little-endian and each
lane is updated independently by `vi = rotl(vi + wi·P2, 31)·P1` modulo 2^64,
lane `i` consuming word `i`, each new lane value depending only on its own
prior value and its own word. -/
theorem stripe_eat (s : XXHasher) (input : List Nat)
    (hm : s.memory.length < 32) (hlen : s.memory.length + input.length = 32) :
    s.write input =
      { memory := []
      , v1 := rotl64 ((s.v1 + readU64LE (s.memory ++ input) * PRIME2 % M64)
          % M64) 31 * PRIME1 % M64
      , v2 := rotl64 ((s.v2 + readU64LE ((s.memory ++ input).drop 8) * PRIME2
          % M64) % M64) 31 * PRIME1 % M64
      , v3 := rotl64 ((s.v3 + readU64LE ((s.memory ++ input).drop 16) * PRIME2
          % M64) % M64) 31 * PRIME1 % M64
      , v4 := rotl64 ((s.v4 + readU64LE ((s.memory ++ input).drop 24) * PRIME2
          % M64) % M64) 31 * PRIME1 % M64
      , total_len := (s.total_len + input.length) % M64
      , seed := s.seed } := by
  have hall : (s.memory ++ input).length = 32 := by
    rw [List.length_append]; exact hlen
  have hes : eatStripes (getLanes s) (s.memory ++ input) =
      (eatStripe (getLanes s) (s.memory ++ input), []) := by
    rw [eatStripes_step _ _ (le_of_eq hall.symm),
      List.drop_eq_nil_of_le (le_of_eq hall),
      eatStripes_lt _ _ (by simp)]
  rw [write_large s input (by omega) hm, hes]
  rfl

theorem stripe_eat_witness :
    ((newWithSeed 0).memory.length < 32 ∧
     (newWithSeed 0).memory.length + (List.range 32).length = 32) ∧
      (newWithSeed 0).write (List.range 32) =
        { memory := []
        , v1 := rotl64 (((newWithSeed 0).v1 +
            readU64LE ((newWithSeed 0).memory ++ List.range 32) * PRIME2 % M64)
            % M64) 31 * PRIME1 % M64
        , v2 := rotl64 (((newWithSeed 0).v2 +
            readU64LE (((newWithSeed 0).memory ++ List.range 32).drop 8) * PRIME2
            % M64) % M64) 31 * PRIME1 % M64
        , v3 := rotl64 (((newWithSeed 0).v3 +
            readU64LE (((newWithSeed 0).memory ++ List.range 32).drop 16) * PRIME2
            % M64) % M64) 31 * PRIME1 % M64
        , v4 := rotl64 (((newWithSeed 0).v4 +
            readU64LE (((newWithSeed 0).memory ++ List.range 32).drop 24) * PRIME2
            % M64) % M64) 31 * PRIME1 % M64
        , total_len := ((newWithSeed 0).total_len + (List.range 32).length) % M64
        , seed := (newWithSeed 0).seed } :=
  ⟨⟨by decide, by decide⟩,
    stripe_eat (newWithSeed 0) (List.range 32) (by decide) (by decide)⟩

/-! ### Tail-phase characterization -/

theorem tail8F_lt (f : Nat) (h : Nat) (bs : List Nat) (hb : bs.length < 8) :
    tail8F f h bs = (h, bs) := by
  cases f with
  | zero => rfl
  | succ f => simp [tail8F, Nat.not_le.mpr hb]

/-- The tail phase as the spec words it: fold the 8-byte step over the full
little-endian 8-byte words of the tail, then apply the 4-byte step at most
once — exactly when 4 to 7 bytes remain — then fold the 1-byte step over the
remaining bytes one at a time. -/
def tailSpec (h : Nat) (bs : List Nat) : Nat :=
  let n8 := bs.length / 8
  let h1 := (List.range n8).foldl
    (fun acc i => step8 acc (readU64LE (bs.drop (8 * i)))) h
  let r1 := bs.drop (8 * n8)
  let h2 := if 4 ≤ r1.length then step4 h1 (readU32LE r1) else h1
  let r2 := if 4 ≤ r1.length then r1.drop 4 else r1
  r2.foldl step1 h2

theorem tail8_char (h : Nat) (bs : List Nat) :
    tail8 h bs =
      ((List.range (bs.length / 8)).foldl
          (fun acc i => step8 acc (readU64LE (bs.drop (8 * i)))) h,
        bs.drop (8 * (bs.length / 8))) := by
  have H : ∀ f (h : Nat) (bs : List Nat), bs.length ≤ f →
      tail8F f h bs =
        ((List.range (bs.length / 8)).foldl
            (fun acc i => step8 acc (readU64LE (bs.drop (8 * i)))) h,
          bs.drop (8 * (bs.length / 8))) := by
    intro f
    induction f with
    | zero =>
      intro h bs hf
      have hb : bs = [] := List.length_eq_zero.mp (Nat.le_zero.mp hf)
      subst hb
      simp [tail8F]
    | succ f ih =>
      intro h bs hf
      by_cases h8 : 8 ≤ bs.length
      · have hstep : tail8F (f + 1) h bs =
            tail8F f (step8 h (readU64LE bs)) (bs.drop 8) := by
          simp [tail8F, h8]
        rw [hstep, ih _ _ (by simp only [List.length_drop]; omega)]
        have hq : bs.length / 8 = (bs.drop 8).length / 8 + 1 := by
          simp only [List.length_drop]; omega
        rw [hq, List.range_succ_eq_map, List.foldl_cons, List.foldl_map]
        simp only [List.drop_drop, List.drop_zero, Nat.mul_succ, Nat.mul_zero,
          Nat.mul_add, Nat.mul_one, Nat.add_comm]
      · rw [tail8F_lt _ _ _ (by omega),
          Nat.div_eq_of_lt (by omega : bs.length < 8)]
        simp
  exact H _ _ _ (Nat.le_refl _)

/-- C7: Tail processing classes — `finish` consumes the buffered tail bytes
in exactly three size classes in order: while at least 8 bytes remain an
8-byte little-endian word `k` is eaten by
`k = rotl(k·P2,31)·P1; h = h xor k; h = rotl(h,27)·P1 + P4`; then, exactly
when 4 to 7 bytes remain, a 4-byte little-endian word fires
`h = h xor (k32·P1); h = rotl(h,23)·P2 + P3` at most once; then each
remaining byte fires `h = h xor (byte·P5); h = rotl(h,11)·P1`.  Stated as:
`finish` is the avalanche of the tail phase applied to the buffered bytes,
and the tail phase equals the spec-side `tailSpec`, in which the three
classes are explicit and the 4-byte class is a single conditional. -/
theorem tail_processing :
    (∀ (s : XXHasher), s.finish =
      avalanche (finishTail (wadd (if s.total_len < 32 then wadd s.seed PRIME5
        else mergeAcc s) s.total_len) s.memory)) ∧
    ∀ (h : Nat) (bs : List Nat), finishTail h bs = tailSpec h bs := by
  constructor
  · intro s
    rfl
  · intro h bs
    unfold finishTail tailSpec
    rw [tail8_char]
    by_cases c : 4 ≤ (bs.drop (8 * (bs.length / 8))).length
    · simp only [c, if_pos]
    · simp only [c, if_neg, ite_false]
